import Mathlib

/-!
Verification of the GoogleSheetsProcessor extraction-and-normalization
pipeline (`main.py` / `webscraper_facade.py`).

Strings are modelled as lists of Unicode code points (`Str := List Nat`);
the character-level helpers model the ASCII fragment of the Python string
methods (`str.isalnum`, `str.upper`, `str.lower`, `str.strip`,
`str.title`), which is the alphabet the identifiers, field names and
sentinel values of this program live in.  Selenium element queries
(`find_elements`, `.text`, attributes) are modelled as fields of explicit
document structures, and the fetched page for a URL is supplied by an
explicit `fetch` environment function.
-/

namespace GSP

/-- A string, as a list of Unicode code points. -/
abbrev Str := List Nat

/-- Code-point image of a Lean string literal, used to write the program's
string constants. -/
def strToL (s : String) : Str := s.data.map Char.toNat

/-- ASCII decimal digit test (models the regex class `\d` and the ASCII
fragment of `str.isdigit`). -/
def isDigitC (c : Nat) : Bool := 48 ≤ c && c ≤ 57

/-- ASCII lower-case letter test. -/
def isLowerC (c : Nat) : Bool := 97 ≤ c && c ≤ 122

/-- ASCII upper-case letter test. -/
def isUpperC (c : Nat) : Bool := 65 ≤ c && c ≤ 90

/-- ASCII letter test. -/
def isAlphaC (c : Nat) : Bool := isUpperC c || isLowerC c

/-- ASCII fragment of Python `str.isalnum`. -/
def isAlnumC (c : Nat) : Bool := isAlphaC c || isDigitC c

/-- ASCII fragment of Python `str.upper` on one character. -/
def toUpperC (c : Nat) : Nat := if 97 ≤ c ∧ c ≤ 122 then c - 32 else c

/-- ASCII fragment of Python `str.lower` on one character. -/
def toLowerC (c : Nat) : Nat := if 65 ≤ c ∧ c ≤ 90 then c + 32 else c

/-- ASCII whitespace (the characters Python `str.strip` removes in the
ASCII range). -/
def isSpaceC (c : Nat) : Bool := c == 32 || c == 9 || c == 10 || c == 13 || c == 11 || c == 12

/-- Python `str.lower` (ASCII fragment). -/
def lowerS (s : Str) : Str := s.map toLowerC

/-- Python `str.strip` (ASCII fragment): drop leading and trailing
whitespace. -/
def stripWS (s : Str) : Str :=
  ((s.dropWhile isSpaceC).reverse.dropWhile isSpaceC).reverse

/-- Does `s` start with `p`?  (Python `str.startswith`.) -/
def startsL : Str → Str → Bool
  | _, [] => true
  | [], _ :: _ => false
  | b :: s, a :: p => a == b && startsL s p

/-- Does `s` end with `p`?  (Python `str.endswith`.) -/
def endsL (s p : Str) : Bool := startsL s.reverse p.reverse

/-- Does `s` contain `p` as a contiguous substring?  (Python `p in s`.) -/
def containsSub : Str → Str → Bool
  | s, p =>
    if startsL s p then true
    else match s with
      | [] => false
      | _ :: t => containsSub t p

/-- Value of a digit string, most significant first. -/
def digitsToNat (s : Str) : Nat := s.foldl (fun a c => a * 10 + (c - 48)) 0

/-- Fuel-driven helper for `natDigits` (structural recursion so that the
kernel can evaluate it; fuel `n + 1` always suffices). -/
def natDigitsAux : Nat → Nat → Str
  | 0, _ => []
  | fuel + 1, n => if n < 10 then [48 + n] else natDigitsAux fuel (n / 10) ++ [48 + n % 10]

/-- Decimal representation of a natural number (Python `f-string` of an
`int`). -/
def natDigits (n : Nat) : Str := natDigitsAux (n + 1) n

/-- Python `s.split(chr(10))`. -/
def splitNL : Str → List Str
  | [] => [[]]
  | c :: t =>
    if c == 10 then [] :: splitNL t
    else match splitNL t with
      | h :: r => (c :: h) :: r
      | [] => [[c]]

/-!
`process_weight_value` (`main.py` lines 356-368, identical in
`webscraper_facade.py` lines 336-360): find the first decimal number
(regex `\d+(\.\d+)?`), ceiling-round it and add 5, and re-append the
trailing non-numeric unit (regex `[^\d.]+$`, stripped), space-separated.
The Python code parses the number into a float; the model computes the
ceiling exactly from the digit strings, which agrees with the float
computation for every value within double precision.  The `try/except`
wrapper is not modelled: the body raises no exception on the pure string
operations involved.
-/

/-- The optional `\.\d+` group of the number regex: after the integer
digits, a dot followed by a (maximal, possibly empty) digit run. -/
def fracScan : Str → Str
  | c :: t => if c == 46 then t.takeWhile isDigitC else []
  | [] => []

/-- Model of `process_weight_value`. -/
def pwv (value : Str) : Str :=
  let rest := value.dropWhile (fun c => !isDigitC c)
  if rest.isEmpty then value
  else
    let ip := rest.takeWhile isDigitC
    let after := rest.dropWhile isDigitC
    let fp := fracScan after
    let ceilN := digitsToNat ip + (if fp.any (fun c => c != 48) then 1 else 0)
    let finalN := ceilN + 5
    let unitsRaw := (value.reverse.takeWhile (fun c => !isDigitC c && c != 46)).reverse
    let units := stripWS unitsRaw
    natDigits finalN ++ (if units.isEmpty then [] else 32 :: units)

/-!
The identifier normalization inside `scrape_katom` (`main.py` lines
455-457, identical in `webscraper_facade.py` lines 39-41): strip
non-alphanumeric characters, upper-case, then remove one trailing "HC".
-/

/-- Model of the model-number cleaning step of `scrape_katom`. -/
def cleanModel (s : Str) : Str :=
  let t := (s.filter isAlnumC).map toUpperC
  if endsL t (strToL "HC") then t.take (t.length - 2) else t

/-!
Insertion-ordered string dictionaries (Python `dict`), as association
lists: `lookupK`/`setK` give lookup and overwrite-or-append assignment.
-/

/-- First value bound to `k`, if any. -/
def lookupK (m : List (Str × Str)) (k : Str) : Option Str :=
  match m with
  | [] => none
  | (k', v) :: t => if k' == k then some v else lookupK t k

/-- Python `d[k] = v`: overwrite in place, or append. -/
def setK (m : List (Str × Str)) (k v : Str) : List (Str × Str) :=
  match m with
  | [] => [(k, v)]
  | (k', v') :: t => if k' == k then (k, v) :: t else (k', v') :: setK t k v

/-- A specification mapping: lower-cased key to value, insertion order. -/
abbrev SpecsDict := List (Str × Str)

/-!
The queried aspects of a rendered product page.  Each field models one of
the Selenium element queries of `scrape_katom` / `extract_table_data`
(`main.py`); element handles are replaced by the text the code reads from
them.
-/

/-- The specification-bearing parts of the document, as seen through the
element queries of `extract_table_data`.  A table is a list of rows, a row
the list of its `td` cell texts. -/
structure Doc where
  /-- `table.table.table-condensed.specs-table` matches. -/
  specsTables : List (List (List Str))
  /-- generic `table` tag matches. -/
  allTables : List (List (List Str))
  /-- `.specs-row, [class*='spec']` matches: per row, the texts of its
  key elements and of its value elements. -/
  specRows : List (List Str × List Str)
  /-- `dl` elements: per list, the texts of its `dt` terms and of its
  `dd` definitions. -/
  dlElems : List (List Str × List Str)
  /-- texts of the `p, div, li, span` elements. -/
  textElems : List Str
deriving Inhabited

/-!
`extract_table_data` (`main.py` lines 370-452, identical logic in
`webscraper_facade.py` lines 163-297): build the specification mapping
and a re-synthesized HTML fragment, via a cascade of strategies.
-/

/-- The fixed opening of the re-synthesized specs table. -/
def tableHeadHtml : Str :=
  strToL "<table class=\"specs-table\" cellspacing=\"0\" cellpadding=\"4\" border=\"1\" style=\"margin-top:10px;border-collapse:collapse;width:auto;\" align=\"left\"><tbody>"

/-- The fixed closing of the re-synthesized specs table. -/
def tableTailHtml : Str := strToL "</tbody></table>"

/-- One re-synthesized table row. -/
def rowHtml (k v : Str) : Str :=
  strToL "<tr><td style=\"padding:3px 8px;\"><b>" ++ k ++
    strToL "</b></td><td style=\"padding:3px 8px;\">" ++ v ++ strToL "</td></tr>"

/-- Weight routing applied to a value under key `k`:
`if "weight" in key.lower(): value = process_weight_value(value)`. -/
def weightAdj (k v : Str) : Str :=
  if containsSub (lowerS k) (strToL "weight") then pwv v else v

/-- Insert-if-absent into a specification mapping
(`if key.lower() not in specs_dict: specs_dict[key.lower()] = value`). -/
def insertAbsent (d : SpecsDict) (k v : Str) : SpecsDict :=
  if (lookupK d k).isNone then d ++ [(k, v)] else d

/-- One `tr` of the chosen table (`main.py` lines 381-390): rows with
fewer than two cells contribute nothing; the key routes weight values;
nonempty keys are inserted (lower-cased, first occurrence wins); the HTML
row is appended unconditionally. -/
def tableRowsStep (acc : SpecsDict × Str) (row : List Str) : SpecsDict × Str :=
  match row with
  | c0 :: c1 :: _ =>
    let key := stripWS c0
    let value := weightAdj key (stripWS c1)
    let d := if !key.isEmpty && (lookupK acc.1 (lowerS key)).isNone
             then acc.1 ++ [(lowerS key, value)] else acc.1
    (d, acc.2 ++ rowHtml key value)
  | _ => acc

/-- Record a pair found by one of the fallback strategies (`main.py`
lines 404-407 and analogous): append to `other_specs` and insert the
lower-cased key if absent. -/
def recordSpec (acc : SpecsDict × List (Str × Str)) (k v : Str) :
    SpecsDict × List (Str × Str) :=
  (insertAbsent acc.1 (lowerS k) v, acc.2 ++ [(k, v)])

/-- Fallback strategy over `.specs-row, [class*='spec']` elements
(`main.py` lines 394-407): both a key element and a value element must be
present; the first of each is used. -/
def specRowStep (acc : SpecsDict × List (Str × Str)) (r : List Str × List Str) :
    SpecsDict × List (Str × Str) :=
  match r with
  | (k0 :: _, v0 :: _) =>
    let key := stripWS k0
    let value := weightAdj key (stripWS v0)
    if !key.isEmpty then recordSpec acc key value else acc
  | _ => acc

/-- Fallback strategy over one `dl` element (`main.py` lines 409-421):
pair `dt` terms with `dd` definitions up to the shorter list. -/
def dlStep (acc : SpecsDict × List (Str × Str)) (dl : List Str × List Str) :
    SpecsDict × List (Str × Str) :=
  (dl.1.zip dl.2).foldl
    (fun a p =>
      let key := stripWS p.1
      let value := weightAdj key (stripWS p.2)
      if !key.isEmpty then recordSpec a key value else a)
    acc

/-- Split at the first occurrence of code point `c`. -/
def splitFirst (s : Str) (c : Nat) : Option (Str × Str) :=
  match s with
  | [] => none
  | a :: t =>
    if a == c then some ([], t)
    else match splitFirst t c with
      | some (p, q) => some (a :: p, q)
      | none => none

/-- Models `re.match` of the shapes `([^:]+):\s*(.+)` (sep 58) and
`([^-]+)-\s*(.+)` (sep 45) followed by the caller's `.strip()` of both
groups: group 1 is the (nonempty) text before the first separator, group 2
the (nonempty) rest; the dot of the pattern is modelled as matching any
character (the scanned element texts are single-line). -/
def reMatchKV (sep : Nat) (t : Str) : Option (Str × Str) :=
  match splitFirst t sep with
  | some (pre, post) =>
    if !pre.isEmpty && !post.isEmpty then some (stripWS pre, stripWS post) else none
  | none => none

/-- The fixed vocabulary of known specification terms (`main.py`
lines 424-428). -/
def commonSpecs : List Str :=
  [strToL "manufacturer", strToL "food type", strToL "frypot style", strToL "heat",
   strToL "hertz", strToL "nema", strToL "number of", strToL "oil capacity",
   strToL "phase", strToL "product", strToL "type", strToL "rating",
   strToL "special features", strToL "voltage", strToL "warranty", strToL "weight",
   strToL "dimensions"]

/-- `any(spec in key.lower() for spec in common_specs)`. -/
def commonKey (k : Str) : Bool :=
  commonSpecs.any (fun s => containsSub (lowerS k) s)

/-- Second pattern attempt of the free-text scan (`key - value`). -/
def tryDash (acc : SpecsDict × List (Str × Str)) (t : Str) :
    SpecsDict × List (Str × Str) :=
  match reMatchKV 45 t with
  | some (key, value) =>
    let v := weightAdj key value
    if commonKey key then recordSpec acc key v else acc
  | none => acc

/-- Free-text scan of one element (`main.py` lines 429-444): skip empty
or over-long texts; try the `key: value` shape, then the `key - value`
shape; a shape that matches stops the pattern loop only when its key
passes the common-specs guard. -/
def textStep (acc : SpecsDict × List (Str × Str)) (raw : Str) :
    SpecsDict × List (Str × Str) :=
  let text := stripWS raw
  if text.isEmpty || 100 < text.length then acc
  else
    match reMatchKV 58 text with
    | some (key, value) =>
      let v := weightAdj key value
      if commonKey key then recordSpec acc key v else tryDash acc text
    | none => tryDash acc text

/-- The fallback cascade of `extract_table_data` (`main.py` lines
392-449), run when no table produced any HTML: dedicated spec rows, then
definition lists, then the free-text scan, each later strategy only when
`other_specs` is still empty; finally re-synthesize the HTML fragment
from the collected pairs. -/
def fallbackSpecs (d0 : SpecsDict) (doc : Doc) : SpecsDict × Str :=
  let s1 := doc.specRows.foldl specRowStep (d0, [])
  let s2 := if s1.2.isEmpty then doc.dlElems.foldl dlStep s1 else s1
  let s3 := if s2.2.isEmpty then doc.textElems.foldl textStep s2 else s2
  let html :=
    if !s3.2.isEmpty then
      tableHeadHtml ++ s3.2.foldl (fun a p => a ++ rowHtml p.1 p.2) [] ++ tableTailHtml
    else []
  (s3.1, html)

/-- Model of `extract_table_data`: prefer the tagged specs tables, else
any table; parse the first such table (its HTML fragment is then nonempty,
wrapper included, so the fallback gate `if not specs_html` fails); only
with no table at all does the fallback cascade run. -/
def extract_table_data (doc : Doc) : SpecsDict × Str :=
  let tables := if !doc.specsTables.isEmpty then doc.specsTables else doc.allTables
  let first :=
    match tables with
    | [] => (([] : SpecsDict), ([] : Str))
    | table :: _ =>
      let p := table.foldl tableRowsStep ([], [])
      (p.1, tableHeadHtml ++ p.2 ++ tableTailHtml)
  if first.2.isEmpty then fallbackSpecs first.1 doc else first

/-!
The fetched page as `scrape_katom` (`main.py` lines 454-534) queries it.
-/

/-- A rendered page.  `productName` is the text of the
`h1.product-name.mb-0` element (`none`: element absent / wait timed out);
`tabParagraphs` the texts of the `p` children of the `tab-content`
element (`none`: no such element); `videoSources` the `src` attributes of
the `source[src*='.mp4'], source[type*='video']` matches; `videoElems`
the `src` attributes of the `source` children of each `video` element;
`mp4Matches` the matches of the pattern `https?://[^"\x27]+\.mp4` in the
page markup, in scan order. -/
structure Page where
  titleText : Str
  productName : Option Str
  tabParagraphs : Option (List Str)
  doc : Doc
  videoSources : List (Option Str)
  videoElems : List (List (Option Str))
  mp4Matches : List Str
deriving Inhabited

/-- The title sentinel. -/
def titleNotFound : Str := strToL "Title not found"

/-- The description sentinel. -/
def descNotFound : Str := strToL "Description not found"

/-- `"404" in driver.title or "not found" in driver.title.lower()`. -/
def is404 (t : Str) : Bool :=
  containsSub t (strToL "404") || containsSub (lowerS t) (strToL "not found")

/-- One candidate of the first two video-link sources (`main.py` lines
503-515): a present, nonempty `src` not yet contained in the accumulated
string (Python substring test) is appended with a trailing newline. -/
def videoStep (acc : Str) (src? : Option Str) : Str :=
  match src? with
  | some src => if !src.isEmpty && !containsSub acc src then acc ++ src ++ [10] else acc
  | none => acc

/-- Video-link extraction (`main.py` lines 502-522, same logic as
`WebScraperFacade.extract_video_links`): explicit media sources, then
sources nested in `video` elements, then the raw `.mp4` scan of the page
markup, each later source only when the accumulated string is still
empty. -/
def extract_video_links (p : Page) : Str :=
  let v1 := p.videoSources.foldl videoStep []
  let v2 := if v1.isEmpty then p.videoElems.foldl (fun a vid => vid.foldl videoStep a) v1 else v1
  if v2.isEmpty then
    p.mp4Matches.foldl (fun a m => if !containsSub a m then a ++ m ++ [10] else a) v2
  else v2

/-- Model of `scrape_katom` after the fetch (`main.py` lines 465-534):
the 404 title signal returns the sentinels immediately; otherwise the
product title gates all further extraction; description paragraphs are
filtered (nonempty, not the `*free` boiler-plate, no mention of video)
and wrapped in `<p>` tags. -/
def scrape_katom (p : Page) : Str × Str × SpecsDict × Str × Str :=
  if is404 p.titleText then (titleNotFound, descNotFound, [], [], [])
  else
    let title := match p.productName with
      | none => titleNotFound
      | some t => stripWS t
    let itemFound := match p.productName with
      | none => false
      | some t => !(stripWS t).isEmpty
    if itemFound then
      let desc := match p.tabParagraphs with
        | none => descNotFound
        | some ps =>
          let filtered := ps.filterMap fun q =>
            let s := stripWS q
            if !s.isEmpty && !startsL (lowerS q) (strToL "*free")
                && !containsSub (lowerS q) (strToL "video")
            then some (strToL "<p>" ++ s ++ strToL "</p>") else none
          if filtered.isEmpty then descNotFound else filtered.foldl (· ++ ·) []
      let specs := extract_table_data p.doc
      (title, desc, specs.1, specs.2, extract_video_links p)
    else (title, descNotFound, [], [], [])

/-!
Schema building and row assembly (`SheetRow.process_file`, `main.py`
lines 552-638).
-/

/-- Python `str.title` on ASCII text: a letter following a non-letter
(or at the start) is upper-cased, a letter following a letter is
lower-cased. -/
def pyTitleGo : Bool → Str → Str
  | _, [] => []
  | prevCased, c :: t =>
    if isAlphaC c then
      (if prevCased then toLowerC c else toUpperC c) :: pyTitleGo true t
    else c :: pyTitleGo false t

/-- Python `str.title` (ASCII fragment). -/
def pyTitle (s : Str) : Str := pyTitleGo false s

/-- The built-in default field set (`main.py` lines 561-567), used when
the field-selector configuration cannot be loaded. -/
def defaultSelectedFields : List Str :=
  [strToL "manufacturer", strToL "food type", strToL "frypot style", strToL "heat",
   strToL "hertz", strToL "nema", strToL "number of fry pots",
   strToL "oil capacity/fryer (lb)", strToL "phase", strToL "product",
   strToL "product type", strToL "rating", strToL "special features", strToL "type",
   strToL "voltage", strToL "warranty", strToL "weight", strToL "title",
   strToL "description", strToL "model", strToL "dimensions", strToL "price",
   strToL "sku"]

/-- The default custom field list (`main.py` line 568). -/
def defaultCustomFields : List Str := [strToL "shipping_weight"]

/-- Output column candidates (`main.py` lines 570-575): the identifier
column, the title-cased selected fields except title/description, the
title-cased custom fields, Title and Description, then Video Link 1-5. -/
def buildColumns (selectedFields customFields : List Str) : List Str :=
  strToL "Mfr Model" ::
    ((selectedFields.filter
        (fun f => f ≠ strToL "title" && f ≠ strToL "description")).map pyTitle
      ++ customFields.map pyTitle
      ++ [strToL "Title", strToL "Description"]
      ++ (List.range 5).map (fun i => strToL "Video Link " ++ natDigits (i + 1)))

/-- The deduplication loop (`main.py` lines 577-585), carrying the `seen`
set of lower-cased names. -/
def dedupGo (seen : List Str) : List Str → List Str
  | [] => []
  | c :: cs =>
    if seen.contains (lowerS c) then dedupGo seen cs
    else c :: dedupGo (lowerS c :: seen) cs

/-- Case-insensitive first-occurrence deduplication of the column list. -/
def dedupColumns (cols : List Str) : List Str := dedupGo [] cols

/-- The deduplicated output schema under the default configuration. -/
def defaultColumns : List Str :=
  dedupColumns (buildColumns defaultSelectedFields defaultCustomFields)

/-- The field-matching test of the record assembler (`main.py` line 623):
`key.lower() == field.lower() or key.lower() in field.lower()`. -/
def fieldMatches (key f : Str) : Bool :=
  lowerS key == lowerS f || containsSub (lowerS f) (lowerS key)

/-- Assignment of one extracted specification pair (`main.py` lines
619-625): the value is weight-routed again, then written to the
title-cased name of the first matching configured field, if any. -/
def specFieldAssign (selectedFields : List Str) (rd : List (Str × Str))
    (kv : Str × Str) : List (Str × Str) :=
  let value := weightAdj kv.1 kv.2
  match selectedFields.find? (fun f => fieldMatches kv.1 f) with
  | some f => setK rd (pyTitle f) value
  | none => rd

/-- `[link.strip() for link in video_links.strip().split(nl) if link.strip()]`
(`main.py` line 630). -/
def linksOf (s : Str) : List Str :=
  ((splitNL (stripWS s)).map stripWS).filter (fun l => !l.isEmpty)

/-- Row assembly (`main.py` lines 608-636): build the `row_data` dict
(identifier, title, combined description, every schema column defaulted
to empty, specification assignment, the shipping-weight custom value
under the key `Shipping Weight`, the video-link slots), then restrict it
to the schema columns in order. -/
def assembleRow (cols selectedFields : List Str) (model title desc : Str)
    (specs : SpecsDict) (specsHtml videoLinks : Str) : List Str :=
  let combined := strToL "<div style=\"text-align: justify;\">" ++ desc ++ strToL "</div>"
    ++ (if !specsHtml.isEmpty
        then strToL "<h3 style=\"margin-top: 15px;\">Specifications</h3>" ++ specsHtml
        else [])
  let rd0 : List (Str × Str) :=
    [(strToL "Mfr Model", model), (strToL "Title", title), (strToL "Description", combined)]
  let rd1 := cols.foldl (fun rd c => if (lookupK rd c).isNone then rd ++ [(c, [])] else rd) rd0
  let rd2 := specs.foldl (specFieldAssign selectedFields) rd1
  let rd3 :=
    if (cols.map lowerS).contains (strToL "shipping_weight") then
      let w := (lookupK specs (strToL "weight")).getD []
      if !w.isEmpty then setK rd2 (strToL "Shipping Weight") (pwv w) else rd2
    else rd2
  let vl := linksOf videoLinks
  let rd4 := (vl.take 5).enum.foldl
    (fun rd p => setK rd (strToL "Video Link " ++ natDigits (p.1 + 1)) p.2) rd3
  let rd5 := (List.range' (vl.length + 1) (5 - vl.length)).foldl
    (fun rd i =>
      let c := strToL "Video Link " ++ natDigits i
      if cols.contains c then setK rd c [] else rd) rd4
  cols.map (fun c => (lookupK rd5 c).getD [])

/-- The retrieval URL (`main.py` line 458), built from the cleaned model
number: `https://www.katom.com/{prefix}-{model_number}.html`. -/
def urlOf (pfx model : Str) : Str :=
  strToL "https://www.katom.com/" ++ pfx ++ strToL "-" ++ cleanModel model ++ strToL ".html"

/-- Per-row outcome (`main.py` lines 606-637): scrape, and assemble an
output row only when the returned title is not the sentinel and carries
no "not found" signal. -/
def rowOutput (cols selectedFields : List Str) (model : Str) (p : Page) :
    Option (List Str) :=
  let r := scrape_katom p
  if r.1 != titleNotFound && !containsSub (lowerS r.1) (strToL "not found") then
    some (assembleRow cols selectedFields model r.1 r.2.1 r.2.2.1 r.2.2.2.1 r.2.2.2.2)
  else none

/-- The mutable state of the batch loop: the in-memory output table, the
rows persisted on disk by `save_results`, and the emitted progress
events. -/
structure BatchState where
  table : List (List Str)
  disk : List (List Str)
  events : List (Nat × Nat)
deriving Inhabited

/-- One iteration of the batch loop (`main.py` lines 597-643) for the
indexed input row `(idx, model)`: an empty model is skipped before any
signal is emitted; otherwise the fetched page is processed, a successful
extraction appends its row and rewrites the file on disk with the full
table (`save_results`), and the progress event `(idx + 1, total)` is
emitted either way.  Cancellation and the per-row exception guard have no
effect in this model (no exception is raised). -/
def stepRow (cols selectedFields : List Str) (fetch : Str → Page) (pfx : Str)
    (total : Nat) (st : BatchState) (ir : Nat × Str) : BatchState :=
  let (idx, model) := ir
  if model.isEmpty then st
  else
    let st1 :=
      match rowOutput cols selectedFields model (fetch (urlOf pfx model)) with
      | some row => { st with table := st.table ++ [row], disk := st.table ++ [row] }
      | none => st
    { st1 with events := st1.events ++ [(idx + 1, total)] }

/-- The initial state: `process_file` writes an empty table to disk
before the loop (`main.py` line 591). -/
def initState : BatchState := { table := [], disk := [], events := [] }

/-- The batch loop over all input rows. -/
def runRows (cols selectedFields : List Str) (fetch : Str → Page) (pfx : Str)
    (rows : List Str) : BatchState :=
  rows.enum.foldl (stepRow cols selectedFields fetch pfx rows.length) initState

/-- Shape of the fractional part found by the number regex: `none` when
the match has no `\.\d+` group. -/
def fracPart : Option Str → Str
  | none => []
  | some fp => 46 :: fp

/-- Contribution of the fractional part to the ceiling. -/
def fracCeil : Option Str → Nat
  | none => 0
  | some fp => if fp.any (fun c => c != 48) then 1 else 0

/-!
General helper lemmas about the list scans used by the model.
-/

theorem takeWhile_append_all {p : Nat → Bool} {l1 l2 : Str}
    (h : ∀ c ∈ l1, p c = true) :
    (l1 ++ l2).takeWhile p = l1 ++ l2.takeWhile p := by
  induction l1 with
  | nil => simp
  | cons a t ih =>
    simp only [List.cons_append, List.takeWhile_cons, h a (by simp)]
    simp [ih fun c hc => h c (by simp [hc])]

theorem dropWhile_append_all {p : Nat → Bool} {l1 l2 : Str}
    (h : ∀ c ∈ l1, p c = true) :
    (l1 ++ l2).dropWhile p = l2.dropWhile p := by
  induction l1 with
  | nil => simp
  | cons a t ih =>
    simp only [List.cons_append, List.dropWhile_cons, h a (by simp)]
    simp [ih fun c hc => h c (by simp [hc])]

theorem takeWhile_all_false {p : Nat → Bool} {l : Str}
    (h : ∀ c ∈ l, p c = false) : l.takeWhile p = [] := by
  cases l with
  | nil => rfl
  | cons a t => simp [List.takeWhile_cons, h a (by simp)]

theorem dropWhile_all_true {p : Nat → Bool} {l : Str}
    (h : ∀ c ∈ l, p c = true) : l.dropWhile p = [] := by
  have := @dropWhile_append_all p l [] h
  simpa using this

theorem dropWhile_head_false {p : Nat → Bool} {c : Nat} {t : Str}
    (h : p c = false) : (c :: t).dropWhile p = c :: t := by
  simp [List.dropWhile_cons, h]

theorem toUpperC_fix (c : Nat) : toUpperC (toUpperC c) = toUpperC c := by
  simp only [toUpperC]
  split_ifs <;> omega

theorem isAlnumC_toUpperC (c : Nat) : isAlnumC (toUpperC c) = isAlnumC c := by
  simp only [isAlnumC, isAlphaC, isUpperC, isLowerC, isDigitC, toUpperC]
  split_ifs with h
  · refine Bool.eq_iff_iff.mpr ?_
    simp only [Bool.or_eq_true, Bool.and_eq_true, decide_eq_true_eq]
    omega
  · rfl

/-- Every character of the cleaned identifier is alphanumeric and fixed
by upper-casing. -/
theorem mem_cleanAlnumUpper {r : Str} {c : Nat}
    (h : c ∈ (r.filter isAlnumC).map toUpperC) :
    isAlnumC c = true ∧ toUpperC c = c := by
  rcases List.mem_map.1 h with ⟨d, hd, rfl⟩
  have hda : isAlnumC d = true := List.of_mem_filter hd
  exact ⟨(isAlnumC_toUpperC d).trans hda, toUpperC_fix d⟩

/-- On a list of alphanumeric, upper-case-fixed characters, the cleaning
pass is the identity. -/
theorem cleanAlnumUpper_id {l : Str}
    (h : ∀ c ∈ l, isAlnumC c = true ∧ toUpperC c = c) :
    (l.filter isAlnumC).map toUpperC = l := by
  induction l with
  | nil => rfl
  | cons a t ih =>
    simp only [List.filter_cons, (h a (by simp)).1, if_pos, List.map_cons,
      (h a (by simp)).2]
    simp only [ih fun c hc => h c (by simp [hc])]

/-- A string that is already clean and does not end in "HC" is fixed by
`cleanModel`. -/
theorem cleanModel_id {s : Str} (h1 : (s.filter isAlnumC).map toUpperC = s)
    (h2 : endsL s (strToL "HC") = false) : cleanModel s = s := by
  simp [cleanModel, h1, h2]

theorem cleanModel_subset (r : Str) :
    cleanModel r ⊆ (r.filter isAlnumC).map toUpperC := by
  simp only [cleanModel]
  split
  · exact List.take_subset _ _
  · exact fun _ h => h

/-- Claim C3, counterexample: normalization is not idempotent.  On
"ABHCHC" one pass removes one trailing "HC" yielding "ABHC", which still
ends in "HC", so a second pass strips again. -/
theorem claim_c3_counterexample :
    cleanModel (cleanModel (strToL "ABHCHC")) ≠ cleanModel (strToL "ABHCHC") := by
  decide

/-- Claim C3, amended: identifier normalization (strip non-alphanumeric
characters, upper-case, remove one trailing "HC") is idempotent on every
raw string whose normalization does not itself end in "HC". -/
theorem claim_c3_amended (r : Str)
    (h : endsL (cleanModel r) (strToL "HC") = false) :
    cleanModel (cleanModel r) = cleanModel r := by
  have hmem : ∀ c ∈ cleanModel r, isAlnumC c = true ∧ toUpperC c = c :=
    fun c hc => mem_cleanAlnumUpper (cleanModel_subset r hc)
  exact cleanModel_id (cleanAlnumUpper_id hmem) h

/-- Witness for C3 amended, at the identifier of the end-to-end
scenario. -/
theorem claim_c3_amended_witness :
    endsL (cleanModel (strToL "64900K")) (strToL "HC") = false ∧
      cleanModel (cleanModel (strToL "64900K")) = cleanModel (strToL "64900K") :=
  ⟨by decide, claim_c3_amended (strToL "64900K") (by decide)⟩

theorem dropWhile_all_false {p : Nat → Bool} {l : Str}
    (h : ∀ c ∈ l, p c = false) : l.dropWhile p = l := by
  cases l with
  | nil => rfl
  | cons a t => exact dropWhile_head_false (h a (by simp))

/-- Claim C4: `process_weight_value` on a string made of a decimal number
followed by a trailing non-numeric unit returns the ceiling of the number
plus 5, space-separated from the stripped unit; on a string with no digit
it returns the input unchanged; and the two spec examples hold. -/
theorem claim_c4 :
    (∀ (ip : Str) (fpo : Option Str) (u : Str),
      ip ≠ [] → (∀ c ∈ ip, isDigitC c = true) →
      (∀ fp, fpo = some fp → ∀ c ∈ fp, isDigitC c = true) →
      (∀ c ∈ u, isDigitC c = false ∧ c ≠ 46) →
      pwv (ip ++ fracPart fpo ++ u)
        = natDigits (digitsToNat ip + fracCeil fpo + 5)
          ++ (if (stripWS u).isEmpty then [] else 32 :: stripWS u))
    ∧ (∀ s : Str, (∀ c ∈ s, isDigitC c = false) → pwv s = s)
    ∧ pwv (strToL "22.93 lbs") = strToL "28 lbs"
    ∧ pwv (strToL "N/A") = strToL "N/A" := by
  refine ⟨?_, ?_, by decide, by decide⟩
  · intro ip fpo u hne hip hfp hu
    have h46 : isDigitC 46 = false := by decide
    have huq : ∀ c ∈ u, (!isDigitC c && c != 46) = true := by
      intro c hc
      rcases hu c hc with ⟨h1, h2⟩
      simp [h1, h2]
    have hipq : ∀ c ∈ ip.reverse, (!isDigitC c && c != 46) = false := by
      intro c hc
      simp [hip c (List.mem_reverse.1 hc)]
    obtain ⟨a, ip', heq⟩ := List.exists_cons_of_ne_nil hne
    have hrest : (ip ++ (fracPart fpo ++ u)).dropWhile (fun c => !isDigitC c)
        = ip ++ (fracPart fpo ++ u) := by
      rw [heq]
      simp only [List.cons_append]
      exact dropWhile_head_false (by simp [hip a (by rw [heq]; simp)])
    have hne2 : (ip ++ (fracPart fpo ++ u)).isEmpty = false := by
      rw [heq]; rfl
    have hfu : (fracPart fpo ++ u).takeWhile isDigitC = [] := by
      cases fpo with
      | none =>
        simpa [fracPart] using takeWhile_all_false (fun c hc => (hu c hc).1)
      | some l => simp [fracPart, List.takeWhile_cons, h46]
    have htake : (ip ++ (fracPart fpo ++ u)).takeWhile isDigitC = ip := by
      rw [takeWhile_append_all hip, hfu, List.append_nil]
    have hdrop : (ip ++ (fracPart fpo ++ u)).dropWhile isDigitC = fracPart fpo ++ u := by
      rw [dropWhile_append_all hip]
      cases fpo with
      | none => simpa [fracPart] using dropWhile_all_false (fun c hc => (hu c hc).1)
      | some l => simp [fracPart, List.dropWhile_cons, h46]
    have hunits : (ip ++ (fracPart fpo ++ u)).reverse.takeWhile
        (fun c => !isDigitC c && c != 46) = u.reverse := by
      simp only [List.reverse_append]
      rw [List.append_assoc, takeWhile_append_all
        (fun c hc => huq c (List.mem_reverse.1 hc))]
      have hrest2 : ((fracPart fpo).reverse ++ ip.reverse).takeWhile
          (fun c => !isDigitC c && c != 46) = [] := by
        apply takeWhile_all_false
        intro c hc
        rcases List.mem_append.1 hc with hc | hc
        · cases fpo with
          | none => simp [fracPart] at hc
          | some l =>
            rcases List.mem_cons.1 (List.mem_reverse.1 hc) with rfl | hc
            · simp
            · simp [hfp l rfl c hc]
        · exact hipq c hc
      rw [hrest2, List.append_nil]
    rw [List.append_assoc]
    cases fpo with
    | none =>
      have hscan : fracScan (fracPart none ++ u) = [] := by
        cases u with
        | nil => rfl
        | cons c t =>
          have hcne : (c == 46) = false := beq_eq_false_iff_ne.mpr (hu c (by simp)).2
          simp [fracPart, fracScan, hcne]
      simp only [pwv, hrest, hne2, Bool.false_eq_true, if_false, htake, hdrop,
        hunits, hscan, List.reverse_reverse, fracCeil]
      simp
    | some l =>
      have hscan : fracScan (fracPart (some l) ++ u) = l := by
        simp only [fracPart, List.cons_append, fracScan, beq_self_eq_true, if_true]
        rw [takeWhile_append_all (hfp l rfl),
          takeWhile_all_false (fun c hc => (hu c hc).1), List.append_nil]
      simp only [pwv, hrest, hne2, Bool.false_eq_true, if_false, htake, hdrop,
        hunits, hscan, List.reverse_reverse, fracCeil]
  · intro s hs
    have hd : s.dropWhile (fun c => !isDigitC c) = [] :=
      dropWhile_all_true (fun c hc => by simp [hs c hc])
    simp [pwv, hd]

/-- Witness for C4, instantiating both universally quantified parts at
concrete inputs. -/
theorem claim_c4_witness :
    pwv (strToL "450.25 kg") = strToL "456 kg" ∧ pwv (strToL "N/A") = strToL "N/A" := by
  constructor
  · have h := claim_c4.1 (strToL "450") (some (strToL "25")) (strToL " kg")
      (by decide) (by decide) (fun fp hfp => by cases hfp; decide) (by decide)
    have e : strToL "450" ++ fracPart (some (strToL "25")) ++ strToL " kg"
        = strToL "450.25 kg" := by decide
    rw [e] at h
    rw [h]
    decide
  · exact claim_c4.2.1 (strToL "N/A") (by decide)

/-!
Claim C6: case-insensitive first-occurrence deduplication of the output
schema.
-/

/-- The schema property as the spec words it: keep each distinct
case-insensitive name exactly once, its first occurrence, in order
(comparison definition for the refinement statement of C6). -/
def specFirstOcc : List Str → List Str
  | [] => []
  | c :: cs =>
    c :: specFirstOcc (cs.filter (fun d => lowerS d != lowerS c))
termination_by l => l.length
decreasing_by
  simp only [List.length_cons]
  exact Nat.lt_succ_of_le (List.length_filter_le _ _)

theorem specFirstOcc_cons (c : Str) (cs : List Str) :
    specFirstOcc (c :: cs)
      = c :: specFirstOcc (cs.filter (fun d => lowerS d != lowerS c)) := by
  rw [specFirstOcc]

theorem dedupGo_eq_firstOcc (l : List Str) :
    ∀ seen, dedupGo seen l
      = specFirstOcc (l.filter (fun d => !seen.contains (lowerS d))) := by
  induction l with
  | nil => intro seen; simp [dedupGo, specFirstOcc]
  | cons c cs ih =>
    intro seen
    rcases hc : seen.contains (lowerS c) with _ | _
    · have h1 : dedupGo seen (c :: cs) = c :: dedupGo (lowerS c :: seen) cs := by
        simp only [dedupGo, hc, Bool.false_eq_true, if_false]
      have h2 : (c :: cs).filter (fun d => !seen.contains (lowerS d))
          = c :: cs.filter (fun d => !seen.contains (lowerS d)) := by
        simp only [List.filter_cons, hc, Bool.not_false, if_true]
      rw [h1, h2, specFirstOcc_cons, ih (lowerS c :: seen)]
      have hp : List.filter (fun d => !(lowerS c :: seen).contains (lowerS d)) cs
          = (cs.filter (fun d => !seen.contains (lowerS d))).filter
              (fun d => lowerS d != lowerS c) := by
        rw [List.filter_filter]
        apply List.filter_congr
        intro d _
        simp only [List.contains_cons, Bool.not_or, bne]
      rw [hp]
    · have h1 : dedupGo seen (c :: cs) = dedupGo seen cs := by
        simp only [dedupGo, hc, if_true]
      have h2 : (c :: cs).filter (fun d => !seen.contains (lowerS d))
          = cs.filter (fun d => !seen.contains (lowerS d)) := by
        simp only [List.filter_cons, hc, Bool.not_true, Bool.false_eq_true, if_false]
      rw [h1, h2, ih seen]

theorem dedupGo_sublist (l : List Str) :
    ∀ seen, List.Sublist (dedupGo seen l) l := by
  induction l with
  | nil => intro seen; simp [dedupGo]
  | cons c cs ih =>
    intro seen
    simp only [dedupGo]
    split
    · exact (ih seen).cons c
    · exact (ih (lowerS c :: seen)).cons₂ c

theorem dedupGo_not_seen (l : List Str) :
    ∀ seen c, c ∈ dedupGo seen l → ¬ seen.contains (lowerS c) = true := by
  induction l with
  | nil => intro seen c hc; simp [dedupGo] at hc
  | cons a cs ih =>
    intro seen c hc
    simp only [dedupGo] at hc
    split at hc
    · exact ih seen c hc
    · rcases List.mem_cons.1 hc with rfl | hc
      · simp_all
      · intro hmem
        exact ih _ c hc (by rw [List.contains_cons, hmem, Bool.or_true])

theorem dedupGo_pairwise (l : List Str) :
    ∀ seen, (dedupGo seen l).Pairwise (fun a b => lowerS a ≠ lowerS b) := by
  induction l with
  | nil => intro seen; simp [dedupGo]
  | cons c cs ih =>
    intro seen
    simp only [dedupGo]
    split
    · exact ih seen
    · refine List.Pairwise.cons ?_ (ih (lowerS c :: seen))
      intro b hb heq
      refine dedupGo_not_seen cs _ b hb ?_
      rw [List.contains_cons]
      have : (lowerS b == lowerS c) = true := by simp [heq]
      rw [this, Bool.true_or]

theorem dedupGo_cover (l : List Str) :
    ∀ seen c, c ∈ l →
      seen.contains (lowerS c) = true ∨ ∃ d ∈ dedupGo seen l, lowerS d = lowerS c := by
  induction l with
  | nil => intro seen c hc; simp at hc
  | cons a cs ih =>
    intro seen c hc
    rcases ha : seen.contains (lowerS a) with _ | _
    · have hd : dedupGo seen (a :: cs) = a :: dedupGo (lowerS a :: seen) cs := by
        simp only [dedupGo, ha, Bool.false_eq_true, if_false]
      rcases List.mem_cons.1 hc with rfl | hc
      · right; exact ⟨c, by rw [hd]; simp, rfl⟩
      · rcases ih (lowerS a :: seen) c hc with hs | ⟨d, hdm, hdc⟩
        · rw [List.contains_cons] at hs
          rcases (Bool.or_eq_true _ _).mp hs with h1 | h2
          · right; exact ⟨a, by rw [hd]; simp, (eq_of_beq h1).symm⟩
          · left; exact h2
        · right; exact ⟨d, by rw [hd]; simp [hdm], hdc⟩
    · have hd : dedupGo seen (a :: cs) = dedupGo seen cs := by
        simp only [dedupGo, ha, if_true]
      rcases List.mem_cons.1 hc with rfl | hc
      · left; exact ha
      · rw [hd]; exact ih seen c hc

/-- Claim C6: for every candidate column list, the deduplicated schema is
exactly the first occurrence of each distinct case-insensitive name in
order (refinement against the spec-worded `specFirstOcc`), its entries
are pairwise case-insensitively distinct, it is an order-preserving
selection from the candidates, every candidate name is represented, and a
later case-insensitive duplicate is dropped rather than renamed (so the
schema can be shorter than the configured list). -/
theorem claim_c6 (cols : List Str) :
    dedupColumns cols = specFirstOcc cols
    ∧ (dedupColumns cols).Pairwise (fun a b => lowerS a ≠ lowerS b)
    ∧ List.Sublist (dedupColumns cols) cols
    ∧ (∀ c ∈ cols, ∃ d ∈ dedupColumns cols, lowerS d = lowerS c)
    ∧ dedupColumns [strToL "Weight", strToL "WEIGHT"] = [strToL "Weight"] := by
  refine ⟨?_, dedupGo_pairwise cols [], dedupGo_sublist cols [],
    fun c hc => ?_, by decide⟩
  · rw [dedupColumns, dedupGo_eq_firstOcc]
    congr 1
    simp
  · rcases dedupGo_cover cols [] c hc with hs | h
    · simp at hs
    · exact h

/-- Witness for C6: the coverage part instantiated on a concrete
duplicate-bearing column list. -/
theorem claim_c6_witness :
    ∃ d ∈ dedupColumns [strToL "A", strToL "a"], lowerS d = lowerS (strToL "a") :=
  (claim_c6 [strToL "A", strToL "a"]).2.2.2.1 (strToL "a") (by decide)

/-!
Characterizations of the Python substring tests, used by claims C2 and
C7.
-/

theorem startsL_iff (s p : Str) : startsL s p = true ↔ ∃ rest, s = p ++ rest := by
  induction p generalizing s with
  | nil => simp [startsL]
  | cons a q ih =>
    cases s with
    | nil => simp [startsL]
    | cons b s' =>
      simp only [startsL, Bool.and_eq_true, beq_iff_eq]
      constructor
      · rintro ⟨rfl, h⟩
        rcases (ih s').1 h with ⟨rest, rfl⟩
        exact ⟨rest, rfl⟩
      · rintro ⟨rest, heq⟩
        injection heq with h1 h2
        exact ⟨h1.symm, (ih s').2 ⟨rest, h2⟩⟩

theorem containsSub_iff (s p : Str) :
    containsSub s p = true ↔ ∃ pre post, s = pre ++ p ++ post := by
  induction s with
  | nil =>
    cases p with
    | nil => exact ⟨fun _ => ⟨[], [], rfl⟩, fun _ => rfl⟩
    | cons a q =>
      simp only [containsSub, startsL, Bool.false_eq_true, if_false]
      constructor
      · intro h; exact absurd h (by simp)
      · rintro ⟨pre, post, heq⟩
        exact absurd heq (by simp)
  | cons b t ih =>
    rcases h : startsL (b :: t) p with _ | _
    · have hL : containsSub (b :: t) p = containsSub t p := by
        rw [containsSub, h]; simp
      rw [hL, ih]
      constructor
      · rintro ⟨pre, post, rfl⟩
        exact ⟨b :: pre, post, rfl⟩
      · rintro ⟨pre, post, heq⟩
        cases pre with
        | nil =>
          exfalso
          have : startsL (b :: t) p = true :=
            (startsL_iff _ _).2 ⟨post, by simpa using heq⟩
          simp [this] at h
        | cons x pre' =>
          injection heq with h1 h2
          exact ⟨pre', post, h2⟩
    · have hL : containsSub (b :: t) p = true := by rw [containsSub, h]; simp
      rw [hL]
      simp only [true_iff]
      rcases (startsL_iff _ _).1 h with ⟨rest, heq⟩
      exact ⟨[], rest, by simpa using heq⟩

/-!
Claim C2: the field-matching rule of the record assembler.
-/

/-- The matching rule as the spec words it (comparison definition for
C2): exact case-insensitive equality, or substring containment in either
direction. -/
def specClaimMatches (key f : Str) : Bool :=
  lowerS key == lowerS f || containsSub (lowerS f) (lowerS key)
    || containsSub (lowerS key) (lowerS f)

/-- Claim C2, counterexample: the code's matcher tests containment in one
direction only.  The spec key "heat output" contains the configured field
"heat", so the spec-worded rule matches, but `fieldMatches` does not, and
in the assembled row the "Heat" column stays empty rather than receiving
the value. -/
theorem claim_c2_counterexample :
    specClaimMatches (strToL "heat output") (strToL "heat") = true
    ∧ fieldMatches (strToL "heat output") (strToL "heat") = false
    ∧ (assembleRow (dedupColumns (buildColumns [strToL "heat"] []))
        [strToL "heat"] (strToL "M1") (strToL "T") (strToL "D")
        [(strToL "heat output", strToL "5 kW")] [] []).get?
        ((dedupColumns (buildColumns [strToL "heat"] [])).indexOf (strToL "Heat"))
      = some [] := by
  refine ⟨by decide, by decide, by decide⟩

/-- Claim C2, amended: the assembler matches an extracted key against a
configured field name by exact case-insensitive equality or by the key
being contained as a substring in the field name (one direction only),
and assigns the value to the first matching field in iteration order;
with the configured list ["product type", "type"] and key "type", both
fields match but only "Product Type" receives the value. -/
theorem claim_c2_amended :
    (∀ key f, fieldMatches key f = true ↔
      (lowerS key = lowerS f ∨ ∃ pre post, lowerS f = pre ++ lowerS key ++ post))
    ∧ ((assembleRow (dedupColumns (buildColumns [strToL "product type", strToL "type"] []))
          [strToL "product type", strToL "type"] (strToL "M1") (strToL "T") (strToL "D")
          [(strToL "type", strToL "Fryer")] [] []).get?
          ((dedupColumns (buildColumns [strToL "product type", strToL "type"] [])).indexOf
            (strToL "Product Type")) = some (strToL "Fryer")
       ∧ (assembleRow (dedupColumns (buildColumns [strToL "product type", strToL "type"] []))
          [strToL "product type", strToL "type"] (strToL "M1") (strToL "T") (strToL "D")
          [(strToL "type", strToL "Fryer")] [] []).get?
          ((dedupColumns (buildColumns [strToL "product type", strToL "type"] [])).indexOf
            (strToL "Type")) = some []) := by
  constructor
  · intro key f
    simp [fieldMatches, containsSub_iff]
  · exact ⟨by decide, by decide⟩

/-!
Dictionary lemmas for the row-assembly proofs (C10 and the driver
claims).
-/

theorem lookupK_append_some {m m2 : List (Str × Str)} {k : Str} {v : Str}
    (h : lookupK m k = some v) : lookupK (m ++ m2) k = some v := by
  induction m with
  | nil => simp [lookupK] at h
  | cons p t ih =>
    rcases p with ⟨k', v'⟩
    simp only [List.cons_append, lookupK] at h ⊢
    rcases hk : (k' == k) with _ | _
    · simp only [hk, Bool.false_eq_true, if_false] at h ⊢
      exact ih h
    · simp only [hk, if_true] at h ⊢
      exact h

theorem lookupK_append_none {m m2 : List (Str × Str)} {k : Str}
    (h : lookupK m k = none) : lookupK (m ++ m2) k = lookupK m2 k := by
  induction m with
  | nil => simp
  | cons p t ih =>
    rcases p with ⟨k', v'⟩
    simp only [List.cons_append, lookupK] at h ⊢
    rcases hk : (k' == k) with _ | _
    · simp only [hk, Bool.false_eq_true, if_false] at h ⊢
      exact ih h
    · rw [hk] at h
      exact absurd h (by simp)

theorem lookupK_setK_ne {m : List (Str × Str)} {ka kb : Str} {v : Str}
    (h : (ka == kb) = false) : lookupK (setK m ka v) kb = lookupK m kb := by
  induction m with
  | nil => simp [setK, lookupK, h]
  | cons p t ih =>
    rcases p with ⟨k', v'⟩
    simp only [setK]
    split
    · next hk =>
      simp only [lookupK, h]
      rw [show (k' == kb) = false from ?_]
      · simp
      · rw [eq_of_beq hk]; exact h
    · simp only [lookupK]
      split
      · simp
      · exact ih

/-- The schema-initialization loop never removes an existing entry. -/
theorem initFold_some {k : Str} {v : Str} (cols : List Str) :
    ∀ rd, lookupK rd k = some v →
      lookupK (cols.foldl
        (fun rd c => if (lookupK rd c).isNone then rd ++ [(c, [])] else rd) rd) k
        = some v := by
  induction cols with
  | nil => intro rd h; exact h
  | cons c cs ih =>
    intro rd h
    simp only [List.foldl_cons]
    split
    · exact ih _ (lookupK_append_some h)
    · exact ih _ h

/-- The schema-initialization loop gives every yet-unbound schema column
the empty value. -/
theorem initFold_mem {k : Str} (cols : List Str) :
    ∀ rd, lookupK rd k = none → k ∈ cols →
      lookupK (cols.foldl
        (fun rd c => if (lookupK rd c).isNone then rd ++ [(c, [])] else rd) rd) k
        = some [] := by
  induction cols with
  | nil => intro rd h hk; simp at hk
  | cons c cs ih =>
    intro rd h hk
    simp only [List.foldl_cons]
    rcases List.mem_cons.1 hk with rfl | hk
    · rw [if_pos (by simp [h])]
      refine initFold_some cs _ ?_
      rw [lookupK_append_none h]
      simp [lookupK]
    · rcases hkc : (c == k) with _ | _
      · split
        · refine ih _ ?_ hk
          rw [lookupK_append_none h]
          simp [lookupK, hkc]
        · exact ih _ h hk
      · have hck : c = k := eq_of_beq hkc
        subst hck
        rw [if_pos (by simp [h])]
        refine initFold_some cs _ ?_
        rw [lookupK_append_none h]
        simp [lookupK]

/-- The specification-assignment loop writes only title-cased configured
field names; a key that is none of those is untouched. -/
theorem specFold_pres {k : Str} {sel : List Str}
    (hsel : ∀ f ∈ sel, (pyTitle f == k) = false) (specs : SpecsDict) :
    ∀ rd, lookupK (specs.foldl (specFieldAssign sel) rd) k = lookupK rd k := by
  induction specs with
  | nil => intro rd; rfl
  | cons kv t ih =>
    intro rd
    simp only [List.foldl_cons, ih]
    simp only [specFieldAssign]
    rcases hf : sel.find? (fun f => fieldMatches kv.1 f) with _ | f
    · rfl
    · exact lookupK_setK_ne (hsel f (List.mem_of_find?_eq_some hf))

/-- A fold writing only indexed video-link columns below index 5 leaves
any other key untouched. -/
theorem videoFold_pres {k : Str}
    (hvl : ∀ i < 6, ((strToL "Video Link " ++ natDigits i) == k) = false)
    (ps : List (Nat × Str)) (hb : ∀ p ∈ ps, p.1 < 5) :
    ∀ rd, lookupK (ps.foldl
        (fun rd p => setK rd (strToL "Video Link " ++ natDigits (p.1 + 1)) p.2) rd) k
      = lookupK rd k := by
  induction ps with
  | nil => intro rd; rfl
  | cons p t ih =>
    intro rd
    simp only [List.foldl_cons]
    rw [ih (fun q hq => hb q (by simp [hq]))]
    exact lookupK_setK_ne (hvl (p.1 + 1) (by have := hb p (by simp); omega))

/-- The padding loop over the remaining video-link slots also leaves any
non-video-link key untouched. -/
theorem rangeFold_pres {k : Str} {cols : List Str}
    (hvl : ∀ i < 6, ((strToL "Video Link " ++ natDigits i) == k) = false)
    (is : List Nat) (hb : ∀ i ∈ is, i < 6) :
    ∀ rd, lookupK (is.foldl
        (fun rd i => if cols.contains (strToL "Video Link " ++ natDigits i)
                     then setK rd (strToL "Video Link " ++ natDigits i) [] else rd) rd) k
      = lookupK rd k := by
  induction is with
  | nil => intro rd; rfl
  | cons i t ih =>
    intro rd
    simp only [List.foldl_cons]
    rw [ih (fun j hj => hb j (by simp [hj]))]
    split
    · exact lookupK_setK_ne (hvl i (hb i (by simp)))
    · rfl

theorem enumFrom_fst_lt {α} : ∀ (n : Nat) (l : List α), ∀ p ∈ l.enumFrom n, p.1 < n + l.length := by
  intro n l
  induction l generalizing n with
  | nil => intro p hp; simp [List.enumFrom] at hp
  | cons a t ih =>
    intro p hp
    rcases List.mem_cons.1 hp with rfl | hp
    · simp
    · have := ih (n + 1) p hp
      simp only [List.length_cons]
      omega

/-- Claim C10: under the default configuration the schema contains the
column "Shipping_Weight" (title-cased custom field name), the assembler's
shipping value is written under the key "Shipping Weight" which is not a
schema column, and therefore the "Shipping_Weight" cell of every
assembled row is the empty string, whatever was extracted. -/
theorem claim_c10 (model title desc : Str) (specs : SpecsDict)
    (specsHtml videoLinks : Str) (i : Nat)
    (hi : defaultColumns.get? i = some (strToL "Shipping_Weight")) :
    strToL "Shipping_Weight" ∈ defaultColumns
    ∧ strToL "Shipping Weight" ∉ defaultColumns
    ∧ (assembleRow defaultColumns defaultSelectedFields model title desc specs
        specsHtml videoLinks).get? i = some [] := by
  refine ⟨by decide, by decide, ?_⟩
  have hsel : ∀ f ∈ defaultSelectedFields,
      (pyTitle f == strToL "Shipping_Weight") = false := by decide
  have hvl : ∀ j < 6,
      ((strToL "Video Link " ++ natDigits j) == strToL "Shipping_Weight") = false := by
    decide
  have hsp : ((strToL "Shipping Weight" : Str) == strToL "Shipping_Weight") = false := by
    decide
  have h0 : ∀ v1 v2 v3 : Str,
      lookupK [(strToL "Mfr Model", v1), (strToL "Title", v2), (strToL "Description", v3)]
        (strToL "Shipping_Weight") = none := by
    intro v1 v2 v3
    simp only [lookupK]
    rw [show ((strToL "Mfr Model" : Str) == strToL "Shipping_Weight") = false by decide,
      show ((strToL "Title" : Str) == strToL "Shipping_Weight") = false by decide,
      show ((strToL "Description" : Str) == strToL "Shipping_Weight") = false by decide]
    simp
  simp only [assembleRow]
  rw [List.get?_map, hi]
  simp only [Option.map_some']
  have hmain : ∀ rd2 : List (Str × Str),
      lookupK rd2 (strToL "Shipping_Weight") = some [] →
      lookupK ((List.range' ((linksOf videoLinks).length + 1)
          (5 - (linksOf videoLinks).length)).foldl
        (fun rd j => if defaultColumns.contains (strToL "Video Link " ++ natDigits j)
                     then setK rd (strToL "Video Link " ++ natDigits j) [] else rd)
        (((linksOf videoLinks).take 5).enum.foldl
          (fun rd p => setK rd (strToL "Video Link " ++ natDigits (p.1 + 1)) p.2) rd2))
        (strToL "Shipping_Weight") = some [] := by
    intro rd2 h2
    rw [rangeFold_pres hvl _ ?_, videoFold_pres hvl _ ?_]
    · exact h2
    · intro p hp
      have h1 := enumFrom_fst_lt 0 _ p hp
      have h2 := List.length_take_le 5 (linksOf videoLinks)
      omega
    · intro j hj
      rcases List.mem_range'.1 hj with ⟨x, hx, rfl⟩
      omega
  have hinit : lookupK (defaultColumns.foldl
      (fun rd c => if (lookupK rd c).isNone then rd ++ [(c, [])] else rd)
      [(strToL "Mfr Model", model), (strToL "Title", title),
       (strToL "Description",
        strToL "<div style=\"text-align: justify;\">" ++ desc ++ strToL "</div>"
          ++ (if !specsHtml.isEmpty
              then strToL "<h3 style=\"margin-top: 15px;\">Specifications</h3>" ++ specsHtml
              else []))]) (strToL "Shipping_Weight") = some [] :=
    initFold_mem _ _ (h0 _ _ _) (by decide)
  have hspec := specFold_pres hsel specs
  split
  · split
    · rw [hmain _ (by rw [lookupK_setK_ne hsp, hspec, hinit])]
      rfl
    · rw [hmain _ (by rw [hspec, hinit])]
      rfl
  · rw [hmain _ (by rw [hspec, hinit])]
    rfl

/-- Witness for C10: the Shipping_Weight cell of the end-to-end
scenario's row is empty. -/
theorem claim_c10_witness :
    (assembleRow defaultColumns defaultSelectedFields (strToL "64900K") (strToL "Test Fryer")
        (strToL "D") [(strToL "weight", strToL "28 lbs")] [] []).get? 22 = some [] :=
  (claim_c10 (strToL "64900K") (strToL "Test Fryer") (strToL "D")
    [(strToL "weight", strToL "28 lbs")] [] [] 22 (by decide)).2.2

/-!
Claim C8: a page classified "not found" yields the sentinel result
immediately, the batch loop appends no row for it, and the progress
event is still emitted.
-/

/-- A fixture page whose title carries the 404 signal. -/
def c8Page : Page :=
  { titleText := strToL "404 Not Found"
    productName := some (strToL "Ignored Product")
    tabParagraphs := some [strToL "Ignored paragraph"]
    doc := { specsTables := [[[strToL "Weight", strToL "10 lbs"]]], allTables := [],
             specRows := [], dlElems := [], textElems := [] }
    videoSources := [some (strToL "https://x/v.mp4")]
    videoElems := []
    mp4Matches := [] }

/-- Claim C8: on a fetched page whose title contains the 404 / "not
found" signal, `scrape_katom` returns the absence sentinels without
consulting any other part of the page (no retry exists in this scraper),
the batch step appends no output row and writes nothing to disk, and the
progress event `(idx + 1, total)` is still emitted. -/
theorem claim_c8 (p : Page) (h404 : is404 p.titleText = true) :
    scrape_katom p = (titleNotFound, descNotFound, [], [], [])
    ∧ (∀ q : Page, q.titleText = p.titleText →
        scrape_katom q = (titleNotFound, descNotFound, [], [], []))
    ∧ (∀ cols sel (fetch : Str → Page) pfx total st idx model, model ≠ [] →
        fetch (urlOf pfx model) = p →
        (stepRow cols sel fetch pfx total st (idx, model)).table = st.table
        ∧ (stepRow cols sel fetch pfx total st (idx, model)).disk = st.disk
        ∧ (stepRow cols sel fetch pfx total st (idx, model)).events
            = st.events ++ [(idx + 1, total)]) := by
  have hscrape : ∀ q : Page, is404 q.titleText = true →
      scrape_katom q = (titleNotFound, descNotFound, [], [], []) := by
    intro q hq
    simp [scrape_katom, hq]
  refine ⟨hscrape p h404, fun q hq => hscrape q (by rw [hq]; exact h404), ?_⟩
  intro cols sel fetch pfx total st idx model hm hf
  have hro : rowOutput cols sel model (fetch (urlOf pfx model)) = none := by
    rw [hf, rowOutput, hscrape p h404]
    simp
  obtain ⟨c, t, rfl⟩ := List.exists_cons_of_ne_nil hm
  have hstep : stepRow cols sel fetch pfx total st (idx, c :: t)
      = { st with events := st.events ++ [(idx + 1, total)] } := by
    simp [stepRow, hro]
  rw [hstep]
  exact ⟨rfl, rfl, rfl⟩

/-- Witness for C8: one batch step over the 404 fixture page appends
nothing and still reports progress. -/
theorem claim_c8_witness :
    (stepRow defaultColumns defaultSelectedFields (fun _ => c8Page) (strToL "150") 1
        initState (0, strToL "64900K")).table = []
    ∧ (stepRow defaultColumns defaultSelectedFields (fun _ => c8Page) (strToL "150") 1
        initState (0, strToL "64900K")).events = [(1, 1)] := by
  have h := (claim_c8 c8Page (by decide)).2.2 defaultColumns defaultSelectedFields
    (fun _ => c8Page) (strToL "150") 1 initState 0 (strToL "64900K") (by decide) rfl
  refine ⟨h.1, ?_⟩
  rw [h.2.2]
  rfl

/-!
Claim C9: incremental durability of the batch loop.
-/

theorem rowOutput_length {cols sel : List Str} {m : Str} {p : Page} {r : List Str}
    (h : rowOutput cols sel m p = some r) : r.length = cols.length := by
  simp only [rowOutput] at h
  split at h
  · injection h with h
    subst h
    simp [assembleRow]
  · cases h

theorem c9_step_disk {cols sel : List Str} {fetch : Str → Page} {pfx : Str} {total : Nat}
    (st : BatchState) (ir : Nat × Str) (h : st.disk = st.table) :
    (stepRow cols sel fetch pfx total st ir).disk
      = (stepRow cols sel fetch pfx total st ir).table := by
  rcases ir with ⟨idx, m⟩
  rcases hm : m.isEmpty with _ | _
  · simp only [stepRow, hm, Bool.false_eq_true, if_false]
    rcases hro : rowOutput cols sel m (fetch (urlOf pfx m)) with _ | row
    · simp [h]
    · simp
  · simp [stepRow, hm, h]

theorem c9_fold_disk {cols sel : List Str} {fetch : Str → Page} {pfx : Str} {total : Nat} :
    ∀ (irs : List (Nat × Str)) (st : BatchState), st.disk = st.table →
      ((irs.foldl (stepRow cols sel fetch pfx total) st)).disk
        = ((irs.foldl (stepRow cols sel fetch pfx total) st)).table := by
  intro irs
  induction irs with
  | nil => intro st h; exact h
  | cons ir t ih =>
    intro st h
    simp only [List.foldl_cons]
    exact ih _ (c9_step_disk st ir h)

theorem c9_fold_table {cols sel : List Str} {fetch : Str → Page} {pfx : Str} {total : Nat} :
    ∀ (irs : List (Nat × Str)) (st : BatchState),
      ((irs.foldl (stepRow cols sel fetch pfx total) st)).table
        = st.table ++ irs.filterMap
            (fun ir => if ir.2.isEmpty then none
                       else rowOutput cols sel ir.2 (fetch (urlOf pfx ir.2))) := by
  intro irs
  induction irs with
  | nil => intro st; simp
  | cons ir t ih =>
    intro st
    rcases ir with ⟨idx, m⟩
    simp only [List.foldl_cons, List.filterMap_cons]
    rcases hm : m.isEmpty with _ | _
    · simp only [stepRow, hm, Bool.false_eq_true, if_false]
      rcases hro : rowOutput cols sel m (fetch (urlOf pfx m)) with _ | row
      · simp only [hro, ih]
      · simp only [hro, ih]
        simp
    · simp only [stepRow, hm, if_true, ih]

theorem enumFrom_take {α} : ∀ (k n : Nat) (l : List α),
    (l.enumFrom n).take k = (l.take k).enumFrom n := by
  intro k
  induction k with
  | zero => intro n l; simp
  | succ k ih =>
    intro n l
    cases l with
    | nil => simp
    | cons a t => simp [List.enumFrom, List.take_succ_cons, ih]

theorem filterMap_enumFrom {α β} (g : α → Option β) :
    ∀ (l : List α) (n : Nat),
      (l.enumFrom n).filterMap (fun ir => g ir.2) = l.filterMap g := by
  intro l
  induction l with
  | nil => intro n; rfl
  | cons a t ih => intro n; simp [List.enumFrom, List.filterMap_cons, ih]

/-- Claim C9: after processing the first `k` input rows (and before row
`k + 1` begins), the rows persisted on disk equal the in-memory table;
that table is exactly the successful extractions among those `k` rows, in
processing order; every such row has as many cells as the schema; and at
the end of the whole batch the persisted file still equals the table. -/
theorem claim_c9 (cols sel : List Str) (fetch : Str → Page) (pfx : Str)
    (rows : List Str) (k : Nat) :
    ((rows.enum.take k).foldl (stepRow cols sel fetch pfx rows.length) initState).disk
      = ((rows.enum.take k).foldl (stepRow cols sel fetch pfx rows.length) initState).table
    ∧ ((rows.enum.take k).foldl (stepRow cols sel fetch pfx rows.length) initState).table
      = (rows.take k).filterMap
          (fun m => if m.isEmpty then none else rowOutput cols sel m (fetch (urlOf pfx m)))
    ∧ ((rows.enum.take k).foldl (stepRow cols sel fetch pfx rows.length) initState).table.all
        (fun r => r.length == cols.length) = true
    ∧ (runRows cols sel fetch pfx rows).disk = (runRows cols sel fetch pfx rows).table := by
  have htable : ((rows.enum.take k).foldl (stepRow cols sel fetch pfx rows.length)
      initState).table
      = (rows.take k).filterMap
          (fun m => if m.isEmpty then none
                    else rowOutput cols sel m (fetch (urlOf pfx m))) := by
    rw [c9_fold_table, List.enum, enumFrom_take]
    exact filterMap_enumFrom
      (fun m => if m.isEmpty then none else rowOutput cols sel m (fetch (urlOf pfx m)))
      (rows.take k) 0
  refine ⟨c9_fold_disk _ _ rfl, htable, ?_, c9_fold_disk _ _ rfl⟩
  rw [List.all_eq_true]
  intro r hr
  rw [htable] at hr
  rcases List.mem_filterMap.1 hr with ⟨m, _, hsome⟩
  split at hsome
  · cases hsome
  · rw [beq_iff_eq]
    exact rowOutput_length hsome

/-!
Claim C5: the specification-inference cascade stops at the tagged table.
-/

theorem isEmpty_append_left {l1 l2 : Str} (h : l1 ≠ []) :
    (l1 ++ l2).isEmpty = false := by
  cases l1 with
  | nil => exact absurd rfl h
  | cons a t => rfl

/-- On a document whose tagged specs tables are nonempty,
`extract_table_data` is exactly the parse of the first tagged table. -/
theorem extract_table_data_tagged {t : List (List Str)} {ts : List (List (List Str))} :
    ∀ d : Doc, d.specsTables = t :: ts →
      extract_table_data d
        = ((t.foldl tableRowsStep ([], [])).1,
           tableHeadHtml ++ (t.foldl tableRowsStep ([], [])).2 ++ tableTailHtml) := by
  intro d h
  have hne : ∀ x : Str, (tableHeadHtml ++ x ++ tableTailHtml).isEmpty = false := by
    intro x
    rw [List.append_assoc]
    exact isEmpty_append_left (by decide)
  simp only [extract_table_data, h, List.isEmpty_cons, Bool.not_false, if_true,
    hne, Bool.false_eq_true, if_false]

/-- One table row never removes an entry from the accumulated mapping. -/
theorem tableStep_some {k v : Str} (acc : SpecsDict × Str) (row : List Str)
    (h : lookupK acc.1 k = some v) : lookupK (tableRowsStep acc row).1 k = some v := by
  rcases row with _ | ⟨c0, _ | ⟨c1, rest⟩⟩
  · exact h
  · exact h
  · simp only [tableRowsStep]
    split
    · exact lookupK_append_some h
    · exact h

theorem tableFold_some {k v : Str} :
    ∀ (t : List (List Str)) (acc : SpecsDict × Str), lookupK acc.1 k = some v →
      lookupK (t.foldl tableRowsStep acc).1 k = some v := by
  intro t
  induction t with
  | nil => intro acc h; exact h
  | cons row t' ih =>
    intro acc h
    simp only [List.foldl_cons]
    exact ih _ (tableStep_some acc row h)

/-- After its row is processed, a nonempty key is present in the
mapping. -/
theorem tableStep_hit (acc : SpecsDict × Str) (c0 c1 : Str) (rest : List Str)
    (h : stripWS c0 ≠ []) :
    ∃ v, lookupK (tableRowsStep acc (c0 :: c1 :: rest)).1 (lowerS (stripWS c0)) = some v := by
  simp only [tableRowsStep]
  have hkey : (stripWS c0).isEmpty = false := by
    cases hc : stripWS c0 with
    | nil => exact absurd hc h
    | cons a t => rfl
  rcases hl : lookupK acc.1 (lowerS (stripWS c0)) with _ | w
  · rw [if_pos (by simp [hkey, hl])]
    refine ⟨weightAdj (stripWS c0) (stripWS c1), ?_⟩
    rw [lookupK_append_none hl]
    simp [lookupK]
  · rw [if_neg (by simp [hl])]
    exact ⟨w, hl⟩

theorem tableFold_hit {c0 c1 : Str} {rest : List Str} :
    ∀ (t : List (List Str)) (acc : SpecsDict × Str), (c0 :: c1 :: rest) ∈ t →
      stripWS c0 ≠ [] →
      ∃ v, lookupK (t.foldl tableRowsStep acc).1 (lowerS (stripWS c0)) = some v := by
  intro t
  induction t with
  | nil => intro acc hm; simp at hm
  | cons row t' ih =>
    intro acc hm hk
    rcases List.mem_cons.1 hm with rfl | hm
    · rcases tableStep_hit acc c0 c1 rest hk with ⟨v, hv⟩
      exact ⟨v, by
        simp only [List.foldl_cons]
        exact tableFold_some t' _ hv⟩
    · simp only [List.foldl_cons]
      exact ih _ hm hk

/-- Claim C5: when the document carries a tagged specification table, the
result of `extract_table_data` is computed from that table alone — it is
unchanged under arbitrary replacement of the spec-row elements, the
definition lists and the free-text elements (so the free-text scan is
never consulted, and on a shared key the tagged-table value wins) — and
every nonempty key of a well-formed row of that table is present in the
resulting mapping. -/
theorem claim_c5 (d : Doc) (t : List (List Str)) (ts : List (List (List Str)))
    (ht : d.specsTables = t :: ts) :
    (∀ sr dl te, extract_table_data { d with specRows := sr, dlElems := dl, textElems := te }
        = extract_table_data d)
    ∧ (extract_table_data d).1 = (t.foldl tableRowsStep ([], [])).1
    ∧ (∀ c0 c1 rest, (c0 :: c1 :: rest) ∈ t → stripWS c0 ≠ [] →
        ∃ v, lookupK (extract_table_data d).1 (lowerS (stripWS c0)) = some v) := by
  refine ⟨?_, ?_, ?_⟩
  · intro sr dl te
    rw [extract_table_data_tagged { d with specRows := sr, dlElems := dl, textElems := te } ht,
      extract_table_data_tagged d ht]
  · rw [extract_table_data_tagged d ht]
  · intro c0 c1 rest hm hk
    rw [extract_table_data_tagged d ht]
    exact tableFold_hit t ([], []) hm hk

/-- Fixture for the C5 witness: a tagged table and a disagreeing
free-text paragraph. -/
def c5Doc : Doc :=
  { specsTables := [[[strToL "Weight", strToL "22.5 lbs"]]]
    allTables := []
    specRows := []
    dlElems := []
    textElems := [strToL "Weight: 99 lbs"] }

/-- Witness for C5: on the fixture, the free-text paragraph is ignored
and the tagged key is present. -/
theorem claim_c5_witness :
    extract_table_data { c5Doc with specRows := [], dlElems := [], textElems := [] }
      = extract_table_data c5Doc
    ∧ (extract_table_data c5Doc).1
      = ([[strToL "Weight", strToL "22.5 lbs"]].foldl tableRowsStep ([], [])).1
    ∧ ∃ v, lookupK (extract_table_data c5Doc).1
        (lowerS (stripWS (strToL "Weight"))) = some v := by
  have h := claim_c5 c5Doc [[strToL "Weight", strToL "22.5 lbs"]] [] rfl
  exact ⟨h.1 [] [] [], h.2.1,
    h.2.2 (strToL "Weight") (strToL "22.5 lbs") [] (by decide) (by decide)⟩

/-!
Claim C7: video-link extraction uses the first yielding source only and
produces no duplicate link.
-/

/-- The accumulated video-link string as a newline-terminated join of the
appended links (proof-side representation). -/
def joinN : List Str → Str
  | [] => []
  | u :: t => u ++ 10 :: joinN t

/-- The newline-separated join without the trailing newline. -/
def joinNI : List Str → Str
  | [] => []
  | [u] => u
  | u :: t => u ++ 10 :: joinNI t

/-- No whitespace anywhere in the link. -/
def noSpace (s : Str) : Bool := s.all (fun c => !isSpaceC c)

theorem joinN_append_one (us : List Str) (s : Str) :
    joinN (us ++ [s]) = joinN us ++ s ++ [10] := by
  induction us with
  | nil => simp [joinN]
  | cons u t ih => simp [joinN, ih]

theorem mem_joinN_sub {u : Str} :
    ∀ us : List Str, u ∈ us → ∃ pre post, joinN us = pre ++ u ++ post := by
  intro us
  induction us with
  | nil => intro h; simp at h
  | cons v t ih =>
    intro h
    rcases List.mem_cons.1 h with rfl | h
    · exact ⟨[], 10 :: joinN t, by simp [joinN]⟩
    · rcases ih h with ⟨pre, post, hjoin⟩
      refine ⟨v ++ 10 :: pre, post, ?_⟩
      simp [joinN, hjoin]

/-- The invariant of the accumulation in `videoStep` and the raw-scan
loop: the string is a newline-terminated join of distinct, nonempty,
whitespace-free links. -/
def AccInv (acc : Str) (urls : List Str) : Prop :=
  acc = joinN urls ∧ urls.Nodup ∧ ∀ u ∈ urls, u ≠ [] ∧ noSpace u = true

theorem accInv_extend {acc : Str} {urls : List Str} {s : Str}
    (hinv : AccInv acc urls) (hs : noSpace s = true) (hne : s ≠ [])
    (hnew : containsSub acc s = false) :
    AccInv (acc ++ s ++ [10]) (urls ++ [s]) := by
  rcases hinv with ⟨hj, hnd, hall⟩
  refine ⟨by rw [hj, joinN_append_one], ?_, ?_⟩
  · rw [List.nodup_append]
    refine ⟨hnd, List.nodup_singleton s, ?_⟩
    intro u hu hus
    rcases List.mem_singleton.1 hus with rfl
    rcases mem_joinN_sub urls hu with ⟨pre, post, hjoin⟩
    have : containsSub acc u = true := by
      rw [containsSub_iff]
      exact ⟨pre, post, by rw [hj, hjoin]⟩
    rw [this] at hnew
    cases hnew
  · intro u hu
    rcases List.mem_append.1 hu with hu | hu
    · exact hall u hu
    · rcases List.mem_singleton.1 hu with rfl
      exact ⟨hne, hs⟩

theorem videoStep_inv {acc : Str} {urls : List Str} (src? : Option Str)
    (hinv : AccInv acc urls)
    (hws : ∀ s, src? = some s → noSpace s = true) :
    ∃ urls', AccInv (videoStep acc src?) urls' := by
  rcases src? with _ | s
  · exact ⟨urls, hinv⟩
  · simp only [videoStep]
    rcases hc : (!s.isEmpty && !containsSub acc s) with _ | _
    · simp only [Bool.false_eq_true, if_false]
      exact ⟨urls, hinv⟩
    · simp only [if_true]
      rw [Bool.and_eq_true] at hc
      rcases hc with ⟨h1, h2⟩
      have hne : s ≠ [] := by
        intro h
        subst h
        simp at h1
      have hnew : containsSub acc s = false := by
        rcases h : containsSub acc s with _ | _
        · rfl
        · rw [h] at h2; cases h2
      exact ⟨urls ++ [s], accInv_extend hinv (hws s rfl) hne hnew⟩

theorem videoFold_inv (cands : List (Option Str)) :
    ∀ {acc : Str} {urls : List Str}, AccInv acc urls →
      (∀ s, some s ∈ cands → noSpace s = true) →
      ∃ urls', AccInv (cands.foldl videoStep acc) urls' := by
  induction cands with
  | nil => intro acc urls hinv _; exact ⟨urls, hinv⟩
  | cons c t ih =>
    intro acc urls hinv hws
    simp only [List.foldl_cons]
    rcases videoStep_inv c hinv (fun s hs => hws s (by rw [hs]; simp)) with ⟨urls', hinv'⟩
    exact ih hinv' (fun s hs => hws s (by simp [hs]))

theorem mp4Fold_inv (cands : List Str) :
    ∀ {acc : Str} {urls : List Str}, AccInv acc urls →
      (∀ s ∈ cands, noSpace s = true) →
      ∃ urls', AccInv (cands.foldl
        (fun a m => if !containsSub a m then a ++ m ++ [10] else a) acc) urls' := by
  induction cands with
  | nil => intro acc urls hinv _; exact ⟨urls, hinv⟩
  | cons c t ih =>
    intro acc urls hinv hws
    simp only [List.foldl_cons]
    have hstep : ∃ urls', AccInv
        (if !containsSub acc c then acc ++ c ++ [10] else acc) urls' := by
      rcases hc : containsSub acc c with _ | _
      · simp only [hc, Bool.not_false, if_true]
        have hne : c ≠ [] := by
          intro h
          subst h
          have hcs : containsSub acc ([] : Str) = true := by
            cases acc with
            | nil => rfl
            | cons a t => rfl
          rw [hcs] at hc
          cases hc
        exact ⟨urls ++ [c], accInv_extend hinv (hws c (by simp)) hne hc⟩
      · simp only [hc, Bool.not_true, Bool.false_eq_true, if_false]
        exact ⟨urls, hinv⟩
    rcases hstep with ⟨urls', hinv'⟩
    exact ih hinv' (fun s hs => hws s (by simp [hs]))

theorem videoNestedFold_inv (vids : List (List (Option Str))) :
    ∀ {acc : Str} {urls : List Str}, AccInv acc urls →
      (∀ vid ∈ vids, ∀ s, some s ∈ vid → noSpace s = true) →
      ∃ urls', AccInv (vids.foldl (fun a vid => vid.foldl videoStep a) acc) urls' := by
  induction vids with
  | nil => intro acc urls hinv _; exact ⟨urls, hinv⟩
  | cons vid t ih =>
    intro acc urls hinv hws
    simp only [List.foldl_cons]
    rcases videoFold_inv vid hinv (hws vid (by simp)) with ⟨urls', hinv'⟩
    exact ih hinv' (fun v hv s hs => hws v (by simp [hv]) s hs)

theorem splitNL_noNL {u : Str} (h : ∀ c ∈ u, (c == 10) = false) :
    splitNL u = [u] := by
  induction u with
  | nil => rfl
  | cons c t ih =>
    simp only [splitNL, h c (by simp)]
    rw [ih (fun c hc => h c (by simp [hc]))]
    simp

theorem splitNL_append10 {u : Str} (X : Str) (h : ∀ c ∈ u, (c == 10) = false) :
    splitNL (u ++ 10 :: X) = u :: splitNL X := by
  induction u with
  | nil => simp [splitNL]
  | cons c t ih =>
    have iht := ih (fun d hd => h d (by simp [hd]))
    simp only [List.cons_append, splitNL, h c (by simp), Bool.false_eq_true, if_false]
    rw [show List.append t (10 :: X) = t ++ 10 :: X from rfl, iht]

theorem joinN_eq_joinNI : ∀ (u : Str) (rest : List Str),
    joinN (u :: rest) = joinNI (u :: rest) ++ [10] := by
  intro u rest
  induction rest generalizing u with
  | nil => simp [joinN, joinNI]
  | cons v r ih =>
    rw [show joinN (u :: v :: r) = u ++ 10 :: joinN (v :: r) from rfl, ih v,
      show joinNI (u :: v :: r) = u ++ 10 :: joinNI (v :: r) from rfl]
    simp

theorem stripWS_noWS {u : Str} (h : noSpace u = true) : stripWS u = u := by
  have hall : ∀ c ∈ u, isSpaceC c = false := by
    intro c hc
    have := (List.all_eq_true.1 h) c hc
    simpa using this
  rw [stripWS, dropWhile_all_false hall,
    dropWhile_all_false (fun c hc => hall c (List.mem_reverse.1 hc)),
    List.reverse_reverse]

theorem joinNI_head_nospace :
    ∀ urls : List Str, urls ≠ [] → (∀ u ∈ urls, u ≠ [] ∧ noSpace u = true) →
      ∃ c cs, joinNI urls = c :: cs ∧ isSpaceC c = false := by
  intro urls hne hall
  rcases urls with _ | ⟨u, rest⟩
  · exact absurd rfl hne
  · rcases hu : u with _ | ⟨c, cs⟩
    · exact absurd hu (hall u (by simp)).1
    · have hc : isSpaceC c = false := by
        have := (List.all_eq_true.1 (hall u (by simp)).2) c (by rw [hu]; simp)
        simpa using this
      rcases rest with _ | ⟨v, r⟩
      · exact ⟨c, cs, by simp [joinNI, hu], hc⟩
      · exact ⟨c, cs ++ 10 :: joinNI (v :: r), by simp [joinNI, hu], hc⟩

theorem joinNI_reverse_head_nospace :
    ∀ urls : List Str, urls ≠ [] → (∀ u ∈ urls, u ≠ [] ∧ noSpace u = true) →
      ∃ c cs, (joinNI urls).reverse = c :: cs ∧ isSpaceC c = false := by
  intro urls
  induction urls with
  | nil => intro h; exact absurd rfl h
  | cons u rest ih =>
    intro _ hall
    rcases rest with _ | ⟨v, r⟩
    · rcases hu : u.reverse with _ | ⟨c, cs⟩
      · exact absurd (by simpa using hu) (hall u (by simp)).1
      · have hcu : c ∈ u := by rw [← List.mem_reverse, hu]; simp
        have hc : isSpaceC c = false := by
          have := (List.all_eq_true.1 (hall u (by simp)).2) c hcu
          simpa using this
        exact ⟨c, cs, by simp [joinNI, hu], hc⟩
    · rcases ih (by simp) (fun w hw => hall w (by simp [hw])) with ⟨c, cs, hrev, hc⟩
      refine ⟨c, cs ++ 10 :: u.reverse, ?_, hc⟩
      rw [show joinNI (u :: v :: r) = u ++ 10 :: joinNI (v :: r) from rfl]
      simp [hrev]

theorem stripWS_joinNI10 {urls : List Str} (hne : urls ≠ [])
    (hall : ∀ u ∈ urls, u ≠ [] ∧ noSpace u = true) :
    stripWS (joinNI urls ++ [10]) = joinNI urls := by
  rcases joinNI_head_nospace urls hne hall with ⟨c, cs, hh, hc⟩
  rcases joinNI_reverse_head_nospace urls hne hall with ⟨c', cs', hr, hc'⟩
  rw [stripWS]
  have h1 : (joinNI urls ++ [10]).dropWhile isSpaceC = joinNI urls ++ [10] := by
    rw [hh, List.cons_append]
    exact dropWhile_head_false hc
  rw [h1, List.reverse_append]
  have h2 : (([10] : Str).reverse ++ (joinNI urls).reverse).dropWhile isSpaceC
      = (joinNI urls).reverse := by
    have : (([10] : Str).reverse ++ (joinNI urls).reverse) = 10 :: (joinNI urls).reverse := by
      simp
    rw [this, List.dropWhile_cons]
    simp only [show isSpaceC 10 = true from rfl, if_true]
    rw [hr]
    exact dropWhile_head_false hc'
  rw [h2, List.reverse_reverse]

theorem linksOf_joinN {urls : List Str}
    (hall : ∀ u ∈ urls, u ≠ [] ∧ noSpace u = true) :
    linksOf (joinN urls) = urls := by
  rcases urls with _ | ⟨u, rest⟩
  · rfl
  · rw [linksOf, joinN_eq_joinNI u rest, stripWS_joinNI10 (by simp) hall]
    have hnl : ∀ w ∈ u :: rest, ∀ c ∈ w, (c == 10) = false := by
      intro w hw c hc
      have := (List.all_eq_true.1 (hall w hw).2) c hc
      have h10 : isSpaceC c = false := by simpa using this
      rcases hb : (c == 10) with _ | _
      · rfl
      · rw [eq_of_beq hb] at h10
        cases h10
    have hsplit : ∀ (us : List Str), us ≠ [] →
        (∀ w ∈ us, ∀ c ∈ w, (c == 10) = false) → splitNL (joinNI us) = us := by
      intro us
      induction us with
      | nil => intro h; exact absurd rfl h
      | cons w r ihr =>
        intro _ hus
        rcases r with _ | ⟨x, r'⟩
        · exact splitNL_noNL (hus w (by simp))
        · rw [joinNI, splitNL_append10 _ (hus w (by simp)),
            ihr (List.cons_ne_nil x r') (fun y hy => hus y (by simp [hy]))]
          exact fun h => List.noConfusion h
    rw [hsplit (u :: rest) (by simp) hnl]
    have hmap : ∀ us : List Str, (∀ w ∈ us, noSpace w = true) → us.map stripWS = us := by
      intro us
      induction us with
      | nil => intro _; rfl
      | cons w t ihw =>
        intro hw
        simp only [List.map_cons, stripWS_noWS (hw w (by simp)),
          ihw (fun y hy => hw y (by simp [hy]))]
    rw [hmap (u :: rest) (fun w hw => (hall w hw).2)]
    rw [List.filter_eq_self.2 ?_]
    intro w hw
    rcases hwv : w with _ | ⟨a, t⟩
    · exact absurd hwv (hall w hw).1
    · rfl

/-- Claim C7: the three video-link sources are consulted strictly in
order; the first one that yields any links determines the whole result
(the later sources are never consulted, so sources are never merged); and
— for whitespace-free candidate URLs — the returned link list contains no
duplicate URL. -/
theorem claim_c7 (p : Page) :
    ((p.videoSources.foldl videoStep []) ≠ [] →
      ∀ ve m, extract_video_links { p with videoElems := ve, mp4Matches := m }
        = p.videoSources.foldl videoStep [])
    ∧ ((p.videoSources.foldl videoStep []) = [] →
       (p.videoElems.foldl (fun a vid => vid.foldl videoStep a) []) ≠ [] →
       ∀ m, extract_video_links { p with mp4Matches := m }
        = p.videoElems.foldl (fun a vid => vid.foldl videoStep a) [])
    ∧ ((p.videoSources.foldl videoStep []) = [] →
       (p.videoElems.foldl (fun a vid => vid.foldl videoStep a) []) = [] →
       extract_video_links p
        = p.mp4Matches.foldl
            (fun a m => if !containsSub a m then a ++ m ++ [10] else a) [])
    ∧ ((∀ s, some s ∈ p.videoSources → noSpace s = true) →
       (∀ vid ∈ p.videoElems, ∀ s, some s ∈ vid → noSpace s = true) →
       (∀ s ∈ p.mp4Matches, noSpace s = true) →
       (linksOf (extract_video_links p)).Nodup) := by
  have hne_isEmpty : ∀ l : Str, l ≠ [] → l.isEmpty = false := by
    intro l h
    cases l with
    | nil => exact absurd rfl h
    | cons a t => rfl
  refine ⟨?_, ?_, ?_, ?_⟩
  · intro h1 ve m
    simp only [extract_video_links, hne_isEmpty _ h1, Bool.false_eq_true, if_false]
  · intro h1 h2 m
    simp only [extract_video_links, h1, List.isEmpty_nil, if_true,
      hne_isEmpty _ h2, Bool.false_eq_true, if_false]
  · intro h1 h2
    simp only [extract_video_links, h1, h2, List.isEmpty_nil, if_true]
  · intro hws1 hws2 hws3
    have hbase : AccInv [] [] := ⟨rfl, List.nodup_nil, by simp⟩
    rcases videoFold_inv p.videoSources hbase hws1 with ⟨u1, h1⟩
    rcases he1 : (p.videoSources.foldl videoStep []).isEmpty with _ | _
    · have hex : extract_video_links p = p.videoSources.foldl videoStep [] := by
        simp only [extract_video_links, he1, Bool.false_eq_true, if_false]
      rw [hex, h1.1, linksOf_joinN h1.2.2]
      exact h1.2.1
    · have hv1 : p.videoSources.foldl videoStep [] = [] := by
        rcases hv : p.videoSources.foldl videoStep [] with _ | ⟨a, t⟩
        · rfl
        · rw [hv] at he1; cases he1
      rcases videoNestedFold_inv p.videoElems hbase hws2 with ⟨u2, h2⟩
      rcases he2 : (p.videoElems.foldl (fun a vid => vid.foldl videoStep a) []).isEmpty
          with _ | _
      · have hex : extract_video_links p
            = p.videoElems.foldl (fun a vid => vid.foldl videoStep a) [] := by
          simp only [extract_video_links, hv1, List.isEmpty_nil, if_true, he2,
            Bool.false_eq_true, if_false]
        rw [hex, h2.1, linksOf_joinN h2.2.2]
        exact h2.2.1
      · have hv2 : p.videoElems.foldl (fun a vid => vid.foldl videoStep a) [] = [] := by
          rcases hv : p.videoElems.foldl (fun a vid => vid.foldl videoStep a) []
              with _ | ⟨a, t⟩
          · exact hv
          · rw [hv] at he2; cases he2
        rcases mp4Fold_inv p.mp4Matches hbase hws3 with ⟨u3, h3⟩
        have hex : extract_video_links p
            = p.mp4Matches.foldl
                (fun a m => if !containsSub a m then a ++ m ++ [10] else a) [] := by
          simp only [extract_video_links, hv1, hv2, List.isEmpty_nil, if_true]
        rw [hex, h3.1, linksOf_joinN h3.2.2]
        exact h3.2.1

/-- Fixture for the C7 witness: overlapping URLs across the three
sources, with a duplicate inside the first source. -/
def c7Page : Page :=
  { titleText := strToL "Test Fryer"
    productName := some (strToL "Test Fryer")
    tabParagraphs := none
    doc := { specsTables := [], allTables := [], specRows := [], dlElems := [],
             textElems := [] }
    videoSources := [some (strToL "https://a/v.mp4"), some (strToL "https://a/v.mp4"),
                     some (strToL "https://b/w.mp4")]
    videoElems := [[some (strToL "https://a/v.mp4")]]
    mp4Matches := [strToL "https://c/x.mp4"] }

/-- Witness for C7: on the fixture, the first source alone determines the
result and the link list has no duplicates. -/
theorem claim_c7_witness :
    extract_video_links { c7Page with videoElems := [], mp4Matches := [] }
      = c7Page.videoSources.foldl videoStep []
    ∧ (linksOf (extract_video_links c7Page)).Nodup := by
  have h := claim_c7 c7Page
  refine ⟨h.1 (by decide) [] [], h.2.2.2 ?_ ?_ ?_⟩
  · intro s hs
    simp only [c7Page, List.mem_cons, List.mem_singleton, Option.some.injEq] at hs
    rcases hs with rfl | rfl | rfl | h'
    · decide
    · decide
    · decide
    · simp at h'
  · intro vid hvid s hs
    simp only [c7Page, List.mem_singleton] at hvid
    subst hvid
    simp only [List.mem_singleton, Option.some.injEq] at hs
    rcases hs with rfl
    decide
  · intro s hs
    simp only [c7Page, List.mem_singleton] at hs
    subst hs
    decide

/-!
Claim C1: the end-to-end scenario.
-/

/-- The fixture document of the end-to-end scenario: product title "Test
Fryer", one tagged specification row Weight -> "22.5 lbs", one mp4
media source. -/
def c1Page : Page :=
  { titleText := strToL "Test Fryer"
    productName := some (strToL "Test Fryer")
    tabParagraphs := none
    doc := { specsTables := [[[strToL "Weight", strToL "22.5 lbs"]]]
             allTables := [], specRows := [], dlElems := [], textElems := [] }
    videoSources := [some (strToL "https://cdn.katom.com/video/64900K.mp4")]
    videoElems := []
    mp4Matches := [] }

/-- The batch run of the end-to-end scenario: one input row "64900K",
prefix "150", every fetch returning the fixture page. -/
def c1Run : BatchState :=
  runRows defaultColumns defaultSelectedFields (fun _ => c1Page) (strToL "150")
    [strToL "64900K"]

/-- Claim C1, counterexample: in the appended output row of the
end-to-end scenario the Weight column does not hold "28 lbs" — the weight
rule is applied twice along the pipeline (once in `extract_table_data`,
once again in the row assembly of `process_file`), producing "33 lbs". -/
theorem claim_c1_counterexample :
    (c1Run.table.head?.bind
        (fun r => r.get? (defaultColumns.indexOf (strToL "Weight"))))
      ≠ some (strToL "28 lbs") := by
  decide

/-- Claim C1, amended: for the input row "64900K" with prefix "150"
against the fixture document, exactly one output row is appended, with
Title = "Test Fryer", Weight = "33 lbs" (the rule ceil+5 applied twice:
22.5 -> 28 during extraction, 28 -> 33 during assembly), Video Link 1 =
the mp4 URL and Video Link 2 through 5 the empty string. -/
theorem claim_c1_amended :
    c1Run.table.length = 1
    ∧ (c1Run.table.head?.bind
        (fun r => r.get? (defaultColumns.indexOf (strToL "Title"))))
      = some (strToL "Test Fryer")
    ∧ (c1Run.table.head?.bind
        (fun r => r.get? (defaultColumns.indexOf (strToL "Weight"))))
      = some (strToL "33 lbs")
    ∧ (c1Run.table.head?.bind
        (fun r => r.get? (defaultColumns.indexOf (strToL "Video Link 1"))))
      = some (strToL "https://cdn.katom.com/video/64900K.mp4")
    ∧ (c1Run.table.head?.bind
        (fun r => r.get? (defaultColumns.indexOf (strToL "Video Link 2"))))
      = some []
    ∧ (c1Run.table.head?.bind
        (fun r => r.get? (defaultColumns.indexOf (strToL "Video Link 3"))))
      = some []
    ∧ (c1Run.table.head?.bind
        (fun r => r.get? (defaultColumns.indexOf (strToL "Video Link 4"))))
      = some []
    ∧ (c1Run.table.head?.bind
        (fun r => r.get? (defaultColumns.indexOf (strToL "Video Link 5"))))
      = some [] := by
  decide

end GSP
